import Mathlib

/-!
# Verification of the benchmark entry store

Shallow embedding of the storage component of `go-continuous-benchmarking`
(`internal/storage/storage.go` and `internal/model/types.go`), together with
proofs about the merge/deduplication algorithm, chronological sorting,
retention trimming, release-tag routing and the error-handling contract.

Machine `int64` fields are modelled as `Int` (no operation in the embedded
code can overflow them), `float64` metric values are modelled as opaque
integers (the store never computes with them, it only carries them), and the
Go standard library's `time.Parse(time.RFC3339, _)` is modelled by an
executable RFC-3339 parser returning epoch nanoseconds.
-/

namespace GoBench

open scoped List

/-- `model.BenchmarkResult`: a single benchmark measurement.  The `float64`
`Value` field is modelled as an `Int`; the store never inspects it. -/
structure BenchmarkResult where
  name : String
  value : Int
  unit : String
  extra : String
  pkg : String
  procs : Int
deriving DecidableEq, Repr

/-- `model.Commit`: the git commit associated with a benchmark run. -/
structure Commit where
  sha : String
  message : String
  author : String
  date : String
  url : String
deriving DecidableEq, Repr

/-- `model.RunParams`: environment/configuration parameters of a run. -/
structure RunParams where
  cpu : String
  goos : String
  goarch : String
  goVersion : String
  cgo : Bool
deriving DecidableEq, Repr

/-- `model.BenchmarkEntry`: a single benchmark run.  `date` is the numeric
epoch-milliseconds timestamp (`int64` in the source). -/
structure BenchmarkEntry where
  commit : Commit
  date : Int
  params : RunParams
  benchmarks : List BenchmarkResult
deriving DecidableEq, Repr

/-- `model.EntryKeyValue`: the composite deduplication key. -/
structure EntryKeyValue where
  sha : String
  params : RunParams
deriving DecidableEq, Repr

/-- `model.BenchmarkEntry.EntryKey`: key of an entry, commit SHA plus all
run parameters. -/
def BenchmarkEntry.EntryKey (e : BenchmarkEntry) : EntryKeyValue :=
  ⟨e.commit.sha, e.params⟩

/-! ## Model of `time.Parse(time.RFC3339, s)`

Go's RFC 3339 parsing accepts exactly
`YYYY-MM-DDTHH:MM:SS[.fraction](Z|±HH:MM)` with field-range validation, and
produces an absolute instant; instants are compared by `Time.Before`.  We
model the parse as `Option Int`, the instant in nanoseconds since the Unix
epoch (fractions beyond 9 digits are truncated, as in Go). -/

def digitVal (c : Char) : Int :=
  (c.toNat : Int) - 48

/-- Read exactly two digits. -/
def read2 : List Char → Option (Int × List Char)
  | a :: b :: rest =>
    if a.isDigit ∧ b.isDigit then some (digitVal a * 10 + digitVal b, rest) else none
  | _ => none

/-- Read exactly four digits. -/
def read4 : List Char → Option (Int × List Char)
  | a :: b :: c :: d :: rest =>
    if a.isDigit ∧ b.isDigit ∧ c.isDigit ∧ d.isDigit then
      some (digitVal a * 1000 + digitVal b * 100 + digitVal c * 10 + digitVal d, rest)
    else none
  | _ => none

/-- Expect a single literal character. -/
def expectChar (c : Char) : List Char → Option (List Char)
  | x :: rest => if x = c then some rest else none
  | [] => none

/-- Nanoseconds denoted by a fractional-second digit string (first 9 digits,
right-padded with zeros; Go truncates longer fractions the same way). -/
def fracNanos (ds : List Char) : Int :=
  (ds.take 9 ++ List.replicate (9 - ds.length) '0').foldl
    (fun acc c => acc * 10 + digitVal c) 0

/-- Read an optional `.digits` fractional second. -/
def readFrac : List Char → Option (Int × List Char)
  | '.' :: c :: rest =>
    if c.isDigit then
      some (fracNanos ((c :: rest).takeWhile Char.isDigit),
            (c :: rest).dropWhile Char.isDigit)
    else none
  | l => some (0, l)

/-- Read the timezone offset (`Z` or `±HH:MM`), in seconds. -/
def readOffset : List Char → Option (Int × List Char)
  | 'Z' :: rest => some (0, rest)
  | s :: rest =>
    if s = '+' ∨ s = '-' then
      match read2 rest with
      | some (hh, r1) =>
        match expectChar ':' r1 with
        | some r2 =>
          match read2 r2 with
          | some (mm, r3) =>
            if hh ≤ 23 ∧ mm ≤ 59 then
              some ((if s = '+' then 1 else -1) * (hh * 3600 + mm * 60), r3)
            else none
          | none => none
        | none => none
      | none => none
    else none
  | [] => none

def isLeapYear (y : Int) : Bool :=
  (y % 4 = 0 ∧ y % 100 ≠ 0) ∨ y % 400 = 0

def daysInMonth (y m : Int) : Int :=
  if m = 2 then (if isLeapYear y then 29 else 28)
  else if m = 4 ∨ m = 6 ∨ m = 9 ∨ m = 11 then 30
  else 31

/-- Days from the Unix epoch to civil date `y-m-d` (proleptic Gregorian). -/
def daysFromCivil (y m d : Int) : Int :=
  let y1 : Int := if m ≤ 2 then y - 1 else y
  let era : Int := (if 0 ≤ y1 then y1 else y1 - 399) / 400
  let yoe : Int := y1 - era * 400
  let doy : Int := (153 * (m + (if 2 < m then -3 else 9)) + 2) / 5 + d - 1
  let doe : Int := yoe * 365 + yoe / 4 - yoe / 100 + doy
  era * 146097 + doe - 719468

/-- Model of `time.Parse(time.RFC3339, s)`: epoch nanoseconds on success. -/
def parseRFC3339 (s : String) : Option Int := do
  let l := s.data
  let (y, r1) ← read4 l
  let r2 ← expectChar '-' r1
  let (mo, r3) ← read2 r2
  let r4 ← expectChar '-' r3
  let (d, r5) ← read2 r4
  let r6 ← expectChar 'T' r5
  let (h, r7) ← read2 r6
  let r8 ← expectChar ':' r7
  let (mi, r9) ← read2 r8
  let r10 ← expectChar ':' r9
  let (sec, r11) ← read2 r10
  let (frac, r12) ← readFrac r11
  let (off, r13) ← readOffset r12
  if r13 = [] ∧ 1 ≤ mo ∧ mo ≤ 12 ∧ 1 ≤ d ∧ d ≤ daysInMonth y mo ∧
      h ≤ 23 ∧ mi ≤ 59 ∧ sec ≤ 59 then
    some ((daysFromCivil y mo d * 86400 + h * 3600 + mi * 60 + sec - off)
            * 1000000000 + frac)
  else none

/-! ## The sort

`sortByCommitDate` calls `sort.SliceStable` with the comparator below.  Go's
stable sort moves each element left past its predecessor while the comparator
holds; on every input this equals a stable insertion sort where the arriving
element bubbles leftward from the end of the processed prefix.  We keep the
processed prefix reversed (`insRev` conses deepest-first) and reverse once at
the end. -/

/-- The comparator closure inside `sortByCommitDate` (storage.go): parse both
commit dates; if either parse fails, fall back to the numeric `Date` field of
both entries, otherwise compare the parsed instants. -/
def commitDateLess (a b : BenchmarkEntry) : Bool :=
  match parseRFC3339 a.commit.date, parseRFC3339 b.commit.date with
  | some ta, some tb => ta < tb
  | _, _ => a.date < b.date

/-- Bubble `x` leftward from the right end of the processed prefix; the
prefix is stored reversed (head = rightmost element). -/
def insRev (less : α → α → Bool) (x : α) : List α → List α
  | [] => [x]
  | y :: ys => if less x y then y :: insRev less x ys else x :: y :: ys

/-- Model of `sort.SliceStable` with comparator `less`. -/
def sortSliceStable (less : α → α → Bool) (l : List α) : List α :=
  (l.foldl (fun acc x => insRev less x acc) []).reverse

/-- `sortByCommitDate` (storage.go): stable sort by the commit-date
comparator. -/
def sortByCommitDate (entries : List BenchmarkEntry) : List BenchmarkEntry :=
  sortSliceStable commitDateLess entries

/-! ## The pure merge core (body of `Storage.mergeEntries`) -/

/-- The in-memory part of `Storage.mergeEntries`: drop every existing entry
whose key occurs in the incoming batch, append the batch, sort by commit
date, and, when `maxItems > 0`, keep only the trailing `maxItems` entries. -/
def filterNotInBatch (entries newEntries : List BenchmarkEntry) :
    List BenchmarkEntry :=
  entries.filter (fun e => ! newEntries.any (fun n => n.EntryKey == e.EntryKey))

def mergeEntriesPure (entries newEntries : List BenchmarkEntry)
    (maxItems : Int) : List BenchmarkEntry :=
  let combined := filterNotInBatch entries newEntries ++ newEntries
  let sorted := sortByCommitDate combined
  if 0 < maxItems ∧ maxItems < (sorted.length : Int) then
    sorted.drop (sorted.length - maxItems.toNat)
  else sorted

/-- The sorted merge of a batch into an existing log, before retention
trimming (steps 2–5 of the merge). -/
def mergedSorted (entries newEntries : List BenchmarkEntry) :
    List BenchmarkEntry :=
  sortByCommitDate (filterNotInBatch entries newEntries ++ newEntries)

/-! ## Release-tag detection

`IsSemanticVersionTag` runs the anchored regular expression
`^v?\d+\.\d+\.\d+` via `MatchString`: the name qualifies iff it *begins*
with an optional `v` followed by three dot-separated digit runs; anything
may follow.  We embed the regex as an executable matcher. -/

/-- Consume one-or-more digits greedily (the regex atom `\d+`). -/
def consumeNum : List Char → Option (List Char)
  | [] => none
  | c :: cs => if c.isDigit then some (cs.dropWhile Char.isDigit) else none

/-- Consume a literal dot (the regex atom `\.`). -/
def consumeDot : List Char → Option (List Char)
  | '.' :: cs => some cs
  | _ => none

/-- Consume `\d+\.\d+\.\d+` at the start of `l`, returning what follows
the third digit run. -/
def semverTriple (l : List Char) : Option (List Char) :=
  (consumeNum l).bind fun l1 =>
    (consumeDot l1).bind fun l2 =>
      (consumeNum l2).bind fun l3 =>
        (consumeDot l3).bind fun l4 =>
          consumeNum l4

/-- Match `\d+\.\d+\.\d+` at the start of `l` (rest unconstrained). -/
def matchSemverCore (l : List Char) : Bool :=
  (semverTriple l).isSome

/-- `IsSemanticVersionTag` (storage.go): does the name match the anchored
regex `^v?\d+\.\d+\.\d+`?  The two alternatives of `v?` are mutually
exclusive, so alternation is an `or`. -/
def IsSemanticVersionTag (name : String) : Bool :=
  matchSemverCore name.data ||
    (match name.data with
     | 'v' :: rest => matchSemverCore rest
     | _ => false)

/-- `ReleasesVirtualBranch` (storage.go): the synthetic aggregate branch. -/
def ReleasesVirtualBranch : String := "releases"

/-! ## File names -/

/-- The per-character replacer inside `sanitizeBranchName`. -/
def sanitizeChar (r : Char) : Char :=
  if r = '/' ∨ r = '\\' ∨ r = ':' ∨ r = '*' ∨ r = '?' ∨ r = '"' ∨
      r = '<' ∨ r = '>' ∨ r = '|' then '_' else r

/-- `sanitizeBranchName` (storage.go): replace each of the nine characters
that are problematic in file names with an underscore. -/
def sanitizeBranchName (branch : String) : String :=
  ⟨branch.data.map sanitizeChar⟩

/-- `BranchFileName` (storage.go): file name of a branch's data file. -/
def BranchFileName (branch : String) : String :=
  sanitizeBranchName branch ++ ".json"

/-! ## The on-disk state

Each persisted file is either absent, present with decodable content, or
present but undecodable (`corrupt`).  `os.ReadFile` + `json.Unmarshal`
become a three-way case split; `os.WriteFile` always succeeds in the model
(the claims under verification concern NotFound/Decode behaviour, not I/O
faults). -/

inductive FileState (α : Type) where
  | absent : FileState α
  | good : α → FileState α
  | corrupt : FileState α
deriving DecidableEq, Repr

/-- `Storage.Metadata` (storage.go). -/
structure Metadata where
  repoURL : String
  lastUpdate : Int
  goModule : String
deriving DecidableEq, Repr

/-- Content of a file in the `data/` directory: the JSON encoding of either
an array of benchmark entries (a branch log) or a SHA→tag object (the
release-tag map, modelled as an association list).  `AppendEntries` only
ever writes nonempty entry arrays and `recordReleaseTags` writes objects; a
JSON array never unmarshals into a Go map and an object never unmarshals
into a slice, so reading a file of the other kind is a decode error. -/
inductive DataContent where
  | entries : List BenchmarkEntry → DataContent
  | tagMap : List (String × String) → DataContent
deriving DecidableEq, Repr

/-- The store's persisted surface: `branches.json`, `metadata.json`, and
the single `data/` directory keyed by file name with the constant `.json`
suffix dropped.  A branch's key is its sanitized name
(`branchDataPath`), and the release-tag map lives in the *same* namespace
at key `release_tags` (`releaseTagsPath` = `<base>/data/release_tags.json`
= `branchDataPath "release_tags"`), so a branch name sanitizing to
`release_tags` collides with the tag map, as in the program. -/
structure Disk where
  branchesFile : FileState (List String)
  dataFiles : String → FileState DataContent
  metadataFile : FileState Metadata

/-- `releaseTagsFileName` (`release_tags.json`) minus the constant `.json`
suffix: the tag map's key in the shared `data/` namespace. -/
def releaseTagsKey : String := "release_tags"

/-- The error a storage operation surfaces when an existing file fails to
decode as the expected JSON shape. -/
inductive StorageError where
  | decodeError : StorageError
deriving DecidableEq, Repr

/-- `Storage.ReadBranches`: absent file reads as the empty list. -/
def readBranches (d : Disk) : Except StorageError (List String) :=
  match d.branchesFile with
  | .absent => .ok []
  | .good v => .ok v
  | .corrupt => .error .decodeError

/-- `Storage.WriteBranches`. -/
def writeBranches (d : Disk) (branches : List String) : Disk :=
  { d with branchesFile := .good branches }

/-- The comparator closure inside `sortBranches`: the `releases` virtual
branch sorts first, all other names lexicographically. -/
def branchNameLess (a b : String) : Bool :=
  if a = ReleasesVirtualBranch then true
  else if b = ReleasesVirtualBranch then false
  else a < b

/-- `sortBranches` (storage.go). -/
def sortBranches (branches : List String) : List String :=
  sortSliceStable branchNameLess branches

/-- The name `EnsureBranch` registers (the local `nameToRegister`): the
branch itself, or the `releases` virtual branch for a semver tag. -/
def registeredName (branch : String) : String :=
  if IsSemanticVersionTag branch then ReleasesVirtualBranch else branch

/-- `Storage.EnsureBranch`: register the branch — or, for a semver tag, the
`releases` virtual branch — in the branch list if not already present. -/
def ensureBranch (d : Disk) (branch : String) :
    Except StorageError (Bool × Disk) :=
  match readBranches d with
  | .error e => .error e
  | .ok branches =>
    if branches.contains (registeredName branch) then
      .ok (false, d)
    else
      .ok (true, writeBranches d
        (sortBranches (branches ++ [registeredName branch])))

/-- `Storage.ReadBranchData`: absent file reads as the empty list. -/
def readBranchData (d : Disk) (branch : String) :
    Except StorageError (List BenchmarkEntry) :=
  match d.dataFiles (sanitizeBranchName branch) with
  | .absent => .ok []
  | .good (.entries v) => .ok v
  | .good (.tagMap _) => .error .decodeError
  | .corrupt => .error .decodeError

/-- `Storage.WriteBranchData`. -/
def writeBranchData (d : Disk) (branch : String)
    (entries : List BenchmarkEntry) : Disk :=
  { d with dataFiles := fun p =>
      if p = sanitizeBranchName branch then .good (.entries entries)
      else d.dataFiles p }

/-- `Storage.mergeEntries`: read-modify-write of one branch data file. -/
def mergeEntries (d : Disk) (branch : String)
    (newEntries : List BenchmarkEntry) (maxItems : Int) :
    Except StorageError Disk :=
  match readBranchData d branch with
  | .error e => .error e
  | .ok entries =>
    .ok (writeBranchData d branch (mergeEntriesPure entries newEntries maxItems))

/-- `Storage.readReleaseTags`: absent file reads as the empty map. -/
def readReleaseTags (d : Disk) :
    Except StorageError (List (String × String)) :=
  match d.dataFiles releaseTagsKey with
  | .absent => .ok []
  | .good (.tagMap v) => .ok v
  | .good (.entries _) => .error .decodeError
  | .corrupt => .error .decodeError

/-- Overwrite-or-insert for the SHA→tag association list (Go map update). -/
def setTag (m : List (String × String)) (sha tag : String) :
    List (String × String) :=
  if m.any (fun p => p.1 == sha) then
    m.map (fun p => if p.1 == sha then (sha, tag) else p)
  else m ++ [(sha, tag)]

/-- `Storage.writeReleaseTags`: write the tag map to its file in `data/`. -/
def writeReleaseTags (d : Disk) (tags : List (String × String)) : Disk :=
  { d with dataFiles := fun p =>
      if p = releaseTagsKey then .good (.tagMap tags) else d.dataFiles p }

/-- `Storage.recordReleaseTags`: map every non-empty commit SHA of the batch
to the tag name, overwriting prior mappings. -/
def recordReleaseTags (d : Disk) (tag : String)
    (entries : List BenchmarkEntry) : Except StorageError Disk :=
  match readReleaseTags d with
  | .error e => .error e
  | .ok tags =>
    .ok (writeReleaseTags d (entries.foldl
      (fun m e => if e.commit.sha ≠ "" then setTag m e.commit.sha tag else m)
      tags))

/-- `Storage.AppendEntries`: register the branch (or `releases` for a semver
tag), merge into the branch's own data file, and, for a semver tag, also
merge into the combined `releases` file and update the tag map. -/
def appendEntries (d : Disk) (branch : String)
    (newEntries : List BenchmarkEntry) (maxItems : Int) :
    Except StorageError Disk :=
  if newEntries.isEmpty then
    .ok d
  else
    match ensureBranch d branch with
    | .error e => .error e
    | .ok (_, d1) =>
      match mergeEntries d1 branch newEntries maxItems with
      | .error e => .error e
      | .ok d2 =>
        if IsSemanticVersionTag branch then
          match mergeEntries d2 ReleasesVirtualBranch newEntries maxItems with
          | .error e => .error e
          | .ok d3 => recordReleaseTags d3 branch newEntries
        else
          .ok d2

/-- `Storage.ReadMetadata`: absent file reads as the zero value. -/
def readMetadata (d : Disk) : Except StorageError Metadata :=
  match d.metadataFile with
  | .absent => .ok ⟨"", 0, ""⟩
  | .good v => .ok v
  | .corrupt => .error .decodeError

/-! ## Derived notions used by the specification's properties -/

/-- Effective commit time of an entry, on a common nanosecond scale: the
RFC-3339 parse of `Commit.Date` when it succeeds, otherwise the numeric
epoch-milliseconds `Date` field (scaled to nanoseconds so the two cases are
comparable; the scaling is strictly monotone, so it does not affect any
ordering statement). -/
def effectiveTimeNanos (e : BenchmarkEntry) : Int :=
  match parseRFC3339 e.commit.date with
  | some t => t
  | none => e.date * 1000000

/-- Adjacent-pairs monotonicity of effective commit time (the spec's
chronological invariant), as an executable predicate. -/
def effMono : List BenchmarkEntry → Bool
  | [] => true
  | [_] => true
  | a :: b :: t => (effectiveTimeNanos a ≤ effectiveTimeNanos b) && effMono (b :: t)

/-- No two entries of the list share an `EntryKey`. -/
def keysNodup (l : List BenchmarkEntry) : Prop :=
  (l.map BenchmarkEntry.EntryKey).Nodup

instance (l : List BenchmarkEntry) : Decidable (keysNodup l) :=
  inferInstanceAs (Decidable ((l.map BenchmarkEntry.EntryKey).Nodup))

/-- The number of distinct `EntryKey`s among the existing entries and the
incoming batch. -/
def totalUniqueKeys (entries newEntries : List BenchmarkEntry) : Nat :=
  ((entries ++ newEntries).map BenchmarkEntry.EntryKey).dedup.length

/-- Modelled from the spec: an entry's "own best-available value" — the
parsed commit date when parsing succeeds, the numeric timestamp otherwise. -/
def bestAvailable (e : BenchmarkEntry) : Int :=
  match parseRFC3339 e.commit.date with
  | some t => t
  | none => e.date

/-- Modelled from the spec: the comparator the spec describes for the case
where parsing fails for one of the two compared entries — "each entry's own
best-available value (parsed date vs. numeric timestamp) rather than forcing
both to the same fallback". -/
def specAsymLess (a b : BenchmarkEntry) : Bool :=
  bestAvailable a < bestAvailable b

/-- Modelled from the spec: a "pre-release/build suffix" — empty, or
starting with the pre-release marker `-` or the build marker `+`. -/
def isSpecSuffix (l : List Char) : Bool :=
  l.isEmpty || l.head? = some '-' || l.head? = some '+'

/-- Match `\d+\.\d+\.\d+` followed by a pre-release/build suffix only. -/
def specCore (l : List Char) : Bool :=
  match semverTriple l with
  | some rest => isSpecSuffix rest
  | none => false

/-- Modelled from the spec: the release-tag pattern as the spec words it —
"optional leading 'v', then MAJOR.MINOR.PATCH, optionally followed by a
pre-release/build suffix". -/
def specIsReleaseTag (name : String) : Bool :=
  specCore name.data ||
    (match name.data with
     | 'v' :: rest => specCore rest
     | _ => false)

/-- A name beginning with optional `v` and three nonempty dot-separated
digit runs, with an arbitrary (possibly empty) remainder: the exact language
of the anchored regex `^v?\d+\.\d+\.\d+`. -/
def SemverPrefixForm (name : String) : Prop :=
  ∃ d1 d2 d3 rest : List Char,
    d1 ≠ [] ∧ d2 ≠ [] ∧ d3 ≠ [] ∧
    (∀ c ∈ d1, c.isDigit = true) ∧ (∀ c ∈ d2, c.isDigit = true) ∧
    (∀ c ∈ d3, c.isDigit = true) ∧
    (name.data = d1 ++ '.' :: (d2 ++ '.' :: (d3 ++ rest)) ∨
     name.data = 'v' :: (d1 ++ '.' :: (d2 ++ '.' :: (d3 ++ rest))))

/-! ## Concrete values for witnesses and counterexamples -/

/-- A fixed run configuration. -/
def rp1 : RunParams := ⟨"cpu1", "linux", "amd64", "go1.22.0", false⟩

/-- A second, distinct run configuration. -/
def rp2 : RunParams := ⟨"cpu2", "linux", "amd64", "go1.22.0", false⟩

/-- Entry at SHA `aaa`, commit date 2024-01-01, metric value 100. -/
def entA : BenchmarkEntry :=
  ⟨⟨"aaa", "", "", "2024-01-01T00:00:00Z", ""⟩, 1704067200000, rp1,
   [⟨"B", 100, "ns/op", "", "", 0⟩]⟩

/-- Entry at SHA `bbb`, commit date 2024-01-02. -/
def entB : BenchmarkEntry :=
  ⟨⟨"bbb", "", "", "2024-01-02T00:00:00Z", ""⟩, 1704153600000, rp1,
   [⟨"B", 2, "ns/op", "", "", 0⟩]⟩

/-- Same key as `entA`, metric value 42. -/
def entA2 : BenchmarkEntry :=
  ⟨⟨"aaa", "", "", "2024-01-01T00:00:00Z", ""⟩, 1704067200000, rp1,
   [⟨"B", 42, "ns/op", "", "", 0⟩]⟩

/-- Same key as `entA` again, metric value 7. -/
def entA3 : BenchmarkEntry :=
  ⟨⟨"aaa", "", "", "2024-01-01T00:00:00Z", ""⟩, 1704067200000, rp1,
   [⟨"B", 7, "ns/op", "", "", 0⟩]⟩

/-- Unparseable commit date, numeric timestamp 100 ms. -/
def entU : BenchmarkEntry := ⟨⟨"u1", "", "", "", ""⟩, 100, rp1, []⟩

/-- Parseable commit date at the epoch (effective time 0), but numeric
timestamp 200 ms. -/
def entP : BenchmarkEntry :=
  ⟨⟨"p1", "", "", "1970-01-01T00:00:00Z", ""⟩, 200, rp2, []⟩

/-- A second unparseable-date entry, numeric timestamp 50 ms. -/
def entU2 : BenchmarkEntry := ⟨⟨"u2", "", "", "", ""⟩, 50, rp2, []⟩

/-- Equal commit date as `entB` but different key (SHA `yyy`). -/
def entY : BenchmarkEntry :=
  ⟨⟨"yyy", "", "", "2024-01-02T00:00:00Z", ""⟩, 1704153600000, rp2,
   [⟨"B", 5, "ns/op", "", "", 0⟩]⟩

/-- Replacement for `entB`: same key, same date, metric value 999. -/
def entB2 : BenchmarkEntry :=
  ⟨⟨"bbb", "", "", "2024-01-02T00:00:00Z", ""⟩, 1704153600000, rp1,
   [⟨"B", 999, "ns/op", "", "", 0⟩]⟩

/-- Parseable 2024 commit date but tiny numeric timestamp 5 ms. -/
def entQ : BenchmarkEntry :=
  ⟨⟨"q1", "", "", "2024-01-01T00:00:00Z", ""⟩, 5, rp1, []⟩

/-- The empty disk: no file exists yet. -/
def disk0 : Disk := ⟨.absent, fun _ => .absent, .absent⟩

/-- A disk whose `branches.json` and `metadata.json` are corrupt and whose
data files are all absent. -/
def diskCorrupt : Disk := ⟨.corrupt, fun _ => .absent, .corrupt⟩

/-- A disk with one corrupt branch data file (for branch `main`). -/
def diskBadData : Disk :=
  ⟨.absent, fun p => if p = "main" then .corrupt else .absent, .absent⟩

/-- The disk obtained by appending `entA` under the tag `v1.0.0` to the
empty disk (used as a concrete witness state). -/
def diskTag : Disk :=
  match appendEntries disk0 "v1.0.0" [entA] 0 with
  | .ok dd => dd
  | .error _ => disk0

/-! ## Generic facts about the stable sort -/

theorem insRev_perm (less : α → α → Bool) (x : α) :
    ∀ l : List α, insRev less x l ~ x :: l := by
  intro l
  induction l with
  | nil => simp [insRev]
  | cons y ys ih =>
      cases h : less x y with
      | true =>
          simp only [insRev, h, if_true]
          exact (ih.cons y).trans (List.Perm.swap x y ys)
      | false => simp [insRev, h]

theorem mem_insRev {less : α → α → Bool} {x a : α} {l : List α} :
    a ∈ insRev less x l ↔ a = x ∨ a ∈ l := by
  rw [(insRev_perm less x l).mem_iff, List.mem_cons]

theorem foldl_insRev_perm (less : α → α → Bool) :
    ∀ (l acc : List α), l.foldl (fun acc x => insRev less x acc) acc ~ l ++ acc := by
  intro l
  induction l with
  | nil => intro acc; simp
  | cons x xs ih =>
      intro acc
      calc (x :: xs).foldl (fun acc x => insRev less x acc) acc
          = xs.foldl (fun acc x => insRev less x acc) (insRev less x acc) := by
            simp
        _ ~ xs ++ insRev less x acc := ih _
        _ ~ xs ++ x :: acc := List.Perm.append_left xs (insRev_perm less x acc)
        _ ~ x :: (xs ++ acc) := List.perm_middle
        _ = (x :: xs) ++ acc := rfl

theorem sortSliceStable_perm (less : α → α → Bool) (l : List α) :
    sortSliceStable less l ~ l := by
  unfold sortSliceStable
  calc (l.foldl (fun acc x => insRev less x acc) []).reverse
      ~ l.foldl (fun acc x => insRev less x acc) [] := List.reverse_perm _
    _ ~ l ++ [] := foldl_insRev_perm less l []
    _ = l := by simp

theorem chain_insRev (less : α → α → Bool) (k : α → Int) (x : α)
    (l : List α) (hx : ∀ y ∈ l, less x y = decide (k x < k y))
    (hc : List.Chain' (fun a b => k b ≤ k a) l) :
    List.Chain' (fun a b => k b ≤ k a) (insRev less x l) := by
  induction l with
  | nil => simp [insRev]
  | cons y ys ih =>
      have hxy := hx y (List.mem_cons_self y ys)
      cases h : less x y with
      | true =>
          have hlt : k x < k y := by
            rw [h] at hxy
            exact of_decide_eq_true hxy.symm
          simp only [insRev, h, if_true]
          rw [List.chain'_cons']
          refine ⟨?_, ih (fun z hz => hx z (List.mem_cons_of_mem y hz)) hc.tail⟩
          intro z hz
          cases ys with
          | nil =>
              simp [insRev] at hz
              subst hz
              exact le_of_lt hlt
          | cons w ws =>
              cases hw : less x w with
              | true =>
                  simp only [insRev, hw, if_true, List.head?_cons,
                    Option.mem_def, Option.some.injEq] at hz
                  subst hz
                  exact (List.chain'_cons.mp hc).1
              | false =>
                  simp only [insRev, hw, if_false, Bool.false_eq_true,
                    List.head?_cons, Option.mem_def, Option.some.injEq] at hz
                  subst hz
                  exact le_of_lt hlt
      | false =>
          have hle : k y ≤ k x := by
            rw [h] at hxy
            exact le_of_not_lt (of_decide_eq_false hxy.symm)
          simp only [insRev, h, if_false, Bool.false_eq_true]
          exact List.chain'_cons.mpr ⟨hle, hc⟩

theorem chain_foldl_insRev (less : α → α → Bool) (k : α → Int) (l₀ : List α)
    (hagree : ∀ a ∈ l₀, ∀ b ∈ l₀, less a b = decide (k a < k b)) :
    ∀ (l acc : List α), (∀ y ∈ l, y ∈ l₀) → (∀ y ∈ acc, y ∈ l₀) →
      List.Chain' (fun a b => k b ≤ k a) acc →
      List.Chain' (fun a b => k b ≤ k a)
        (l.foldl (fun acc x => insRev less x acc) acc) := by
  intro l
  induction l with
  | nil => intro acc _ _ hc; simpa using hc
  | cons x xs ih =>
      intro acc hl hacc hc
      simp only [List.foldl_cons]
      refine ih _ (fun y hy => hl y (List.mem_cons_of_mem x hy))
        (fun y hy => ?_) ?_
      · rcases mem_insRev.mp hy with rfl | hy'
        · exact hl y (List.mem_cons_self y xs)
        · exact hacc y hy'
      · refine chain_insRev less k x acc (fun y hy => ?_) hc
        exact hagree x (hl x (List.mem_cons_self x xs)) y (hacc y hy)

theorem chain_sortSliceStable (less : α → α → Bool) (k : α → Int)
    (l : List α) (hagree : ∀ a ∈ l, ∀ b ∈ l, less a b = decide (k a < k b)) :
    List.Chain' (fun a b => k a ≤ k b) (sortSliceStable less l) := by
  unfold sortSliceStable
  rw [List.chain'_reverse]
  exact chain_foldl_insRev less k l hagree l [] (fun _ h => h)
    (by simp) (by simp)

theorem chain'_drop {R : α → α → Prop} :
    ∀ (n : Nat) (l : List α), List.Chain' R l → List.Chain' R (l.drop n) := by
  intro n
  induction n with
  | zero => intro l hc; simpa using hc
  | succ m ih =>
      intro l hc
      rw [← List.tail_drop]
      exact (ih l hc).tail

/-! ## Effective time and the comparator -/

theorem effMono_iff_chain (l : List BenchmarkEntry) :
    effMono l = true ↔
      List.Chain' (fun a b => effectiveTimeNanos a ≤ effectiveTimeNanos b) l := by
  induction l with
  | nil => simp [effMono]
  | cons a t ih =>
      cases t with
      | nil => simp [effMono]
      | cons b t2 =>
          rw [List.chain'_cons, ← ih]
          simp [effMono]

theorem commitDateLess_of_isSome {a b : BenchmarkEntry}
    (ha : (parseRFC3339 a.commit.date).isSome = true)
    (hb : (parseRFC3339 b.commit.date).isSome = true) :
    commitDateLess a b =
      decide (effectiveTimeNanos a < effectiveTimeNanos b) := by
  obtain ⟨ta, hta⟩ := Option.isSome_iff_exists.mp ha
  obtain ⟨tb, htb⟩ := Option.isSome_iff_exists.mp hb
  simp [commitDateLess, effectiveTimeNanos, hta, htb]

theorem commitDateLess_of_none {a b : BenchmarkEntry}
    (h : parseRFC3339 a.commit.date = none ∨ parseRFC3339 b.commit.date = none) :
    commitDateLess a b = decide (a.date < b.date) := by
  rcases h with h | h
  · cases hb : parseRFC3339 b.commit.date <;> simp [commitDateLess, h, hb]
  · cases ha : parseRFC3339 a.commit.date <;> simp [commitDateLess, h, ha]

theorem commitDateLess_of_none_none {a b : BenchmarkEntry}
    (ha : parseRFC3339 a.commit.date = none)
    (hb : parseRFC3339 b.commit.date = none) :
    commitDateLess a b =
      decide (effectiveTimeNanos a < effectiveTimeNanos b) := by
  simp only [commitDateLess, effectiveTimeNanos, ha, hb]
  apply decide_eq_decide.mpr
  constructor
  · intro h
    exact mul_lt_mul_of_pos_right h (by norm_num)
  · intro h
    exact lt_of_mul_lt_mul_right h (by norm_num)

/-! ## Shape of the merge -/

theorem mem_merge_combined {a : BenchmarkEntry}
    {entries newEntries : List BenchmarkEntry}
    (h : a ∈ filterNotInBatch entries newEntries ++ newEntries) :
    a ∈ entries ++ newEntries := by
  rcases List.mem_append.mp h with h | h
  · exact List.mem_append.mpr (Or.inl (List.mem_of_mem_filter h))
  · exact List.mem_append.mpr (Or.inr h)

theorem mergeEntriesPure_eq_drop (entries newEntries : List BenchmarkEntry)
    (maxItems : Int) :
    mergeEntriesPure entries newEntries maxItems =
      if 0 < maxItems ∧ maxItems < ((mergedSorted entries newEntries).length : Int)
      then (mergedSorted entries newEntries).drop
        ((mergedSorted entries newEntries).length - maxItems.toNat)
      else mergedSorted entries newEntries := rfl

theorem effMono_merge_of_agree (entries newEntries : List BenchmarkEntry)
    (maxItems : Int)
    (hagree : ∀ a ∈ entries ++ newEntries, ∀ b ∈ entries ++ newEntries,
      commitDateLess a b =
        decide (effectiveTimeNanos a < effectiveTimeNanos b)) :
    effMono (mergeEntriesPure entries newEntries maxItems) = true := by
  rw [effMono_iff_chain]
  have hchain : List.Chain'
      (fun a b => effectiveTimeNanos a ≤ effectiveTimeNanos b)
      (mergedSorted entries newEntries) := by
    unfold mergedSorted sortByCommitDate
    exact chain_sortSliceStable commitDateLess effectiveTimeNanos _
      (fun a ha b hb =>
        hagree a (mem_merge_combined ha) b (mem_merge_combined hb))
  rw [mergeEntriesPure_eq_drop]
  by_cases h : 0 < maxItems ∧
      maxItems < ((mergedSorted entries newEntries).length : Int)
  · rw [if_pos h]
    exact chain'_drop _ _ hchain
  · rw [if_neg h]
    exact hchain

/-! ## Claim C2: chronological invariant -/

/-- C2 (amended): after a merge, adjacent entries of the persisted log are
non-decreasing in effective commit time whenever the commit dates of all
participating entries are uniformly parseable, or uniformly unparseable.
(As stated for *every* mix of parseable and unparseable dates the claim is
false — see the counterexample: when either compared entry fails to parse
the comparator falls back to both entries' numeric timestamps, which need
not agree with effective commit time.) -/
theorem merge_chronological_of_uniform_parse
    (entries newEntries : List BenchmarkEntry) (maxItems : Int) :
    ((∀ e ∈ entries ++ newEntries,
        (parseRFC3339 e.commit.date).isSome = true) →
      effMono (mergeEntriesPure entries newEntries maxItems) = true) ∧
    ((∀ e ∈ entries ++ newEntries, parseRFC3339 e.commit.date = none) →
      effMono (mergeEntriesPure entries newEntries maxItems) = true) := by
  constructor
  · intro hall
    exact effMono_merge_of_agree entries newEntries maxItems
      (fun a ha b hb => commitDateLess_of_isSome (hall a ha) (hall b hb))
  · intro hall
    exact effMono_merge_of_agree entries newEntries maxItems
      (fun a ha b hb => commitDateLess_of_none_none (hall a ha) (hall b hb))

/-- Witness for C2: both uniform cases at concrete inputs. -/
theorem merge_chronological_of_uniform_parse_witness :
    effMono (mergeEntriesPure [entA] [entB, entY] 3) = true ∧
    effMono (mergeEntriesPure [entU] [entU2] 0) = true :=
  ⟨(merge_chronological_of_uniform_parse [entA] [entB, entY] 3).1
      (by decide),
   (merge_chronological_of_uniform_parse [entU] [entU2] 0).2
      (by decide)⟩

/-- Counterexample for C2 as stated: a merged log mixing one unparseable
and one parseable commit date in which adjacent effective commit times
decrease.  The comparator orders `entU` (numeric timestamp 100) before
`entP` (numeric timestamp 200), but their effective commit times are
100 ms and 0. -/
theorem merge_chronological_mixed_fails :
    effMono (mergeEntriesPure [] [entU, entP] 0) = false ∧
    parseRFC3339 entU.commit.date = none ∧
    (parseRFC3339 entP.commit.date).isSome = true := by
  refine ⟨?_, by decide, by decide⟩
  decide

/-! ## Key uniqueness -/

theorem mem_filterNotInBatch {e : BenchmarkEntry}
    {entries newEntries : List BenchmarkEntry} :
    e ∈ filterNotInBatch entries newEntries ↔
      e ∈ entries ∧ ∀ n ∈ newEntries, n.EntryKey ≠ e.EntryKey := by
  simp [filterNotInBatch, List.mem_filter]

theorem keysNodup_combined {entries newEntries : List BenchmarkEntry}
    (h1 : keysNodup entries) (h2 : keysNodup newEntries) :
    ((filterNotInBatch entries newEntries ++ newEntries).map
      BenchmarkEntry.EntryKey).Nodup := by
  rw [List.map_append, List.nodup_append]
  refine ⟨((List.filter_sublist entries).map _).nodup h1, h2, ?_⟩
  intro κ hκF hκN
  obtain ⟨a, haF, rfl⟩ := List.mem_map.mp hκF
  obtain ⟨n, hnN, hkey⟩ := List.mem_map.mp hκN
  exact (mem_filterNotInBatch.mp haF).2 n hnN hkey

/-- C3 (amended): provided neither the existing log nor the incoming batch
contains two entries sharing an `EntryKey`, neither does the merged log.
(As stated — "including when the incoming batch itself contains two or more
entries with the same EntryKey" — the claim is false: the merge only removes
*existing* entries whose key occurs in the batch and appends the batch
verbatim, so duplicates inside the batch survive; see the counterexample.) -/
theorem merge_keysNodup (entries newEntries : List BenchmarkEntry)
    (maxItems : Int) (h1 : keysNodup entries) (h2 : keysNodup newEntries) :
    keysNodup (mergeEntriesPure entries newEntries maxItems) := by
  have hsort : keysNodup (mergedSorted entries newEntries) := by
    unfold keysNodup
    exact ((sortSliceStable_perm commitDateLess _).map
      BenchmarkEntry.EntryKey).nodup_iff.mpr (keysNodup_combined h1 h2)
  rw [mergeEntriesPure_eq_drop]
  by_cases h : 0 < maxItems ∧
      maxItems < ((mergedSorted entries newEntries).length : Int)
  · rw [if_pos h]
    exact ((List.drop_sublist _ _).map BenchmarkEntry.EntryKey).nodup hsort
  · rw [if_neg h]
    exact hsort

/-- Witness for C3 at a concrete merge. -/
theorem merge_keysNodup_witness :
    keysNodup (mergeEntriesPure [entA] [entB, entY] 0) :=
  merge_keysNodup [entA] [entB, entY] 0 (by decide) (by decide)

/-- Counterexample for C3 as stated: a batch containing two entries with the
same `EntryKey` produces a persisted log in which two entries share a key. -/
theorem merge_keysNodup_batch_dup_fails :
    ¬ keysNodup (mergeEntriesPure [] [entA2, entA3] 0) ∧
    entA2.EntryKey = entA3.EntryKey ∧ entA2 ≠ entA3 := by
  refine ⟨?_, by decide, by decide⟩
  intro h
  revert h
  decide

/-! ## Claim C1: replace semantics -/

theorem countP_one_filter {p : α → Bool} {l : List α} {e : α}
    (hc : l.countP p = 1) (he : e ∈ l) (hpe : p e = true) :
    l.filter p = [e] := by
  have hlen : (l.filter p).length = 1 := by
    rw [← List.countP_eq_length_filter]
    exact hc
  have hmem : e ∈ l.filter p := List.mem_filter.mpr ⟨he, hpe⟩
  cases hf : l.filter p with
  | nil => rw [hf] at hmem; cases hmem
  | cons z zs =>
      rw [hf] at hlen hmem
      cases zs with
      | nil =>
          cases List.mem_singleton.mp hmem
          rfl
      | cons w ws => simp at hlen

/-- C1 (amended): if the incoming batch contains *exactly one* entry `e`
with a given key that also occurs among the persisted entries, and no
retention trimming applies (`maxItems = 0`; a positive limit may drop the
key's entry entirely), then after the merge exactly one entry with that key
remains, namely the incoming entry with its values — the incoming batch wins
regardless of which entry was chronologically newer.  (As stated, for
*every* incoming batch, the claim is false: a batch containing two entries
with the same key leaves both in the log; see the counterexample.) -/
theorem merge_replace_semantics (entries newEntries : List BenchmarkEntry)
    (e : BenchmarkEntry) (hmem : e ∈ newEntries)
    (hcount : newEntries.countP (fun y => y.EntryKey == e.EntryKey) = 1)
    (_hold : ∃ p ∈ entries, p.EntryKey = e.EntryKey) :
    (mergeEntriesPure entries newEntries 0).filter
      (fun y => y.EntryKey == e.EntryKey) = [e] := by
  have h0 : mergeEntriesPure entries newEntries 0 =
      mergedSorted entries newEntries := by
    rw [mergeEntriesPure_eq_drop, if_neg]
    intro h
    exact absurd h.1 (by norm_num)
  rw [h0]
  have htarget : (filterNotInBatch entries newEntries ++ newEntries).filter
      (fun y => y.EntryKey == e.EntryKey) = [e] := by
    rw [List.filter_append]
    have hF : (filterNotInBatch entries newEntries).filter
        (fun y => y.EntryKey == e.EntryKey) = [] := by
      rw [List.filter_eq_nil_iff]
      intro a ha hpa
      exact (mem_filterNotInBatch.mp ha).2 e hmem (beq_iff_eq.mp hpa).symm
    rw [hF, List.nil_append]
    exact countP_one_filter hcount hmem (beq_self_eq_true _)
  have hperm : (mergedSorted entries newEntries).filter
        (fun y => y.EntryKey == e.EntryKey) ~ [e] := by
    rw [← htarget]
    exact (sortSliceStable_perm commitDateLess _).filter _
  exact List.perm_singleton.mp hperm

/-- Witness for C1: replacing `entA` by the same-keyed `entA2`. -/
theorem merge_replace_semantics_witness :
    (mergeEntriesPure [entA, entB] [entA2] 0).filter
      (fun y => y.EntryKey == entA2.EntryKey) = [entA2] :=
  merge_replace_semantics [entA, entB] [entA2] entA2 (by decide)
    (by decide) ⟨entA, by decide, by decide⟩

/-- Counterexample for C1 as stated: a batch with two same-keyed entries
(both sharing the key of the persisted `entA`) leaves *two* entries for that
key, not exactly one. -/
theorem merge_replace_semantics_batch_dup_fails :
    (mergeEntriesPure [entA] [entA2, entA3] 0).countP
      (fun y => y.EntryKey == entA.EntryKey) = 2 ∧
    entA2.EntryKey = entA.EntryKey ∧ entA3.EntryKey = entA.EntryKey := by
  decide

/-! ## Claim C4: retention law -/

theorem length_mergedSorted (entries newEntries : List BenchmarkEntry)
    (h1 : keysNodup entries) (h2 : keysNodup newEntries) :
    (mergedSorted entries newEntries).length =
      totalUniqueKeys entries newEntries := by
  have hK := keysNodup_combined h1 h2
  have hmem : ∀ κ, κ ∈ ((entries ++ newEntries).map
        BenchmarkEntry.EntryKey).dedup ↔
      κ ∈ (filterNotInBatch entries newEntries ++ newEntries).map
        BenchmarkEntry.EntryKey := by
    intro κ
    rw [List.mem_dedup]
    simp only [List.mem_map, List.mem_append]
    constructor
    · rintro ⟨e, he | he, rfl⟩
      · by_cases hdup : ∃ n ∈ newEntries, n.EntryKey = e.EntryKey
        · obtain ⟨n, hn, hkey⟩ := hdup
          exact ⟨n, Or.inr hn, hkey⟩
        · push_neg at hdup
          exact ⟨e, Or.inl (mem_filterNotInBatch.mpr ⟨he, hdup⟩), rfl⟩
      · exact ⟨e, Or.inr he, rfl⟩
    · rintro ⟨e, he | he, rfl⟩
      · exact ⟨e, Or.inl (mem_filterNotInBatch.mp he).1, rfl⟩
      · exact ⟨e, Or.inr he, rfl⟩
  have hperm := (List.perm_ext_iff_of_nodup (List.nodup_dedup _) hK).mpr hmem
  calc (mergedSorted entries newEntries).length
      = (filterNotInBatch entries newEntries ++ newEntries).length :=
        (sortSliceStable_perm commitDateLess _).length_eq
    _ = ((filterNotInBatch entries newEntries ++ newEntries).map
          BenchmarkEntry.EntryKey).length := (List.length_map _ _).symm
    _ = totalUniqueKeys entries newEntries := hperm.length_eq.symm

/-- C4 (amended): provided the existing log and the incoming batch are each
free of duplicate keys, a merge with `retentionLimit = N > 0` leaves a log of
length `min N totalUniqueKeys`; the result is exactly the trailing window of
the sorted merge (trimming happens after merge and sort, oldest dropped
first), and — when all commit dates parse uniformly — every dropped entry has
effective commit time ≤ every retained entry.  (As stated, without the
duplicate-key proviso, the length claim is false: a batch with an internal
duplicate key yields a longer log than `totalUniqueKeys`; see the
counterexample.) -/
theorem merge_retention_law (entries newEntries : List BenchmarkEntry)
    (maxItems : Int) (h1 : keysNodup entries) (h2 : keysNodup newEntries)
    (hN : 0 < maxItems) :
    (mergeEntriesPure entries newEntries maxItems).length =
      min maxItems.toNat (totalUniqueKeys entries newEntries) ∧
    mergeEntriesPure entries newEntries maxItems =
      (mergedSorted entries newEntries).drop
        ((mergedSorted entries newEntries).length -
          min maxItems.toNat (totalUniqueKeys entries newEntries)) ∧
    ((∀ e ∈ entries ++ newEntries,
        (parseRFC3339 e.commit.date).isSome = true) →
      ∀ a ∈ (mergedSorted entries newEntries).take
        ((mergedSorted entries newEntries).length -
          min maxItems.toNat (totalUniqueKeys entries newEntries)),
      ∀ b ∈ mergeEntriesPure entries newEntries maxItems,
        effectiveTimeNanos a ≤ effectiveTimeNanos b) := by
  have hlenL := length_mergedSorted entries newEntries h1 h2
  have hshape :
      mergeEntriesPure entries newEntries maxItems =
        (mergedSorted entries newEntries).drop
          ((mergedSorted entries newEntries).length -
            min maxItems.toNat (totalUniqueKeys entries newEntries)) := by
    rw [mergeEntriesPure_eq_drop]
    by_cases h : maxItems < ((mergedSorted entries newEntries).length : Int)
    · rw [if_pos ⟨hN, h⟩]
      congr 1
      omega
    · rw [if_neg (fun hc => h hc.2)]
      have : (mergedSorted entries newEntries).length -
          min maxItems.toNat (totalUniqueKeys entries newEntries) = 0 := by
        omega
      rw [this, List.drop_zero]
  have hlen : (mergeEntriesPure entries newEntries maxItems).length =
      min maxItems.toNat (totalUniqueKeys entries newEntries) := by
    rw [hshape, List.length_drop]
    omega
  refine ⟨hlen, hshape, ?_⟩
  intro hall
  have hchain : List.Chain'
      (fun a b => effectiveTimeNanos a ≤ effectiveTimeNanos b)
      (mergedSorted entries newEntries) := by
    unfold mergedSorted sortByCommitDate
    exact chain_sortSliceStable commitDateLess effectiveTimeNanos _
      (fun a ha b hb => commitDateLess_of_isSome
        (hall a (mem_merge_combined ha)) (hall b (mem_merge_combined hb)))
  haveI : IsTrans BenchmarkEntry
      (fun a b => effectiveTimeNanos a ≤ effectiveTimeNanos b) :=
    ⟨fun _ _ _ => le_trans⟩
  have hpw := List.chain'_iff_pairwise.mp hchain
  rw [← List.take_append_drop
    ((mergedSorted entries newEntries).length -
      min maxItems.toNat (totalUniqueKeys entries newEntries))
    (mergedSorted entries newEntries)] at hpw
  intro a ha b hb
  rw [hshape] at hb
  exact (List.pairwise_append.mp hpw).2.2 a ha b hb

/-- Witness for C4: merging three distinct-key entries with retention 2. -/
theorem merge_retention_law_witness :
    (mergeEntriesPure [entA] [entB, entY] 2).length =
      min (Int.toNat 2) (totalUniqueKeys [entA] [entB, entY]) :=
  (merge_retention_law [entA] [entB, entY] 2 (by decide) (by decide)
    (by norm_num)).1

/-- Counterexample for C4 as stated: a batch with an internal duplicate key
produces a log of length 2 although `totalUniqueKeys = 1` and the retention
limit is 5, so the length is not `min(N, totalUniqueKeys)`. -/
theorem merge_retention_law_dup_fails :
    (mergeEntriesPure [] [entA2, entA3] 5).length = 2 ∧
    totalUniqueKeys [] [entA2, entA3] = 1 := by
  decide

/-! ## Claim C5: position of a same-time replacement -/

theorem foldl_insRev_sorted (less : α → α → Bool) (k : α → Int)
    (l₀ : List α)
    (hagree : ∀ a ∈ l₀, ∀ b ∈ l₀, less a b = decide (k a < k b)) :
    ∀ (l acc : List α), (∀ y ∈ l, y ∈ l₀) → (∀ y ∈ acc, y ∈ l₀) →
      (∀ a ∈ acc, ∀ b ∈ l, k a ≤ k b) →
      List.Pairwise (fun a b => k a ≤ k b) l →
      l.foldl (fun acc x => insRev less x acc) acc = l.reverse ++ acc := by
  intro l
  induction l with
  | nil => intro acc _ _ _ _; simp
  | cons x xs ih =>
      intro acc hl hacc hcross hsorted
      have hx0 : x ∈ l₀ := hl x (List.mem_cons_self x xs)
      have hstep : insRev less x acc = x :: acc := by
        cases acc with
        | nil => simp [insRev]
        | cons a as =>
            have ha0 : a ∈ l₀ := hacc a (List.mem_cons_self a as)
            have hle : k a ≤ k x :=
              hcross a (List.mem_cons_self a as) x (List.mem_cons_self x xs)
            have : less x a = false := by
              rw [hagree x hx0 a ha0]
              exact decide_eq_false (not_lt.mpr hle)
            simp [insRev, this]
      simp only [List.foldl_cons, hstep]
      rw [ih (x :: acc) (fun y hy => hl y (List.mem_cons_of_mem x hy))
        (fun y hy => ?memacc) (fun a ha b hb => ?cross)
        (List.pairwise_cons.mp hsorted).2]
      · simp
      case memacc =>
        rcases List.mem_cons.mp hy with rfl | hy'
        · exact hx0
        · exact hacc y hy'
      case cross =>
        rcases List.mem_cons.mp ha with rfl | ha'
        · exact (List.pairwise_cons.mp hsorted).1 b hb
        · exact hcross a ha' b (List.mem_cons_of_mem x hb)

theorem insRev_pass (less : α → α → Bool) (x : α) :
    ∀ (P Q : List α), (∀ b ∈ P, less x b = true) →
      (Q = [] ∨ ∃ h t, Q = h :: t ∧ less x h = false) →
      insRev less x (P ++ Q) = P ++ x :: Q := by
  intro P
  induction P with
  | nil =>
      intro Q _ hQ
      rcases hQ with rfl | ⟨h, t, rfl, hh⟩
      · simp [insRev]
      · simp [insRev, hh]
  | cons b bs ih =>
      intro Q hP hQ
      have hb : less x b = true := hP b (List.mem_cons_self b bs)
      simp only [List.cons_append, insRev, hb, if_true, List.append_eq]
      rw [ih Q (fun c hc => hP c (List.mem_cons_of_mem b hc)) hQ]

theorem sorted_dropWhile_lt (k : α → Int) (x : α) :
    ∀ F : List α, List.Pairwise (fun a b => k a ≤ k b) F →
      ∀ b ∈ F.dropWhile (fun y => k y ≤ k x), k x < k b := by
  intro F
  induction F with
  | nil => intro _ b hb; simp at hb
  | cons f fs ih =>
      intro hp b hb
      by_cases hf : k f ≤ k x
      · rw [List.dropWhile_cons_of_pos (by simpa using hf)] at hb
        exact ih (List.pairwise_cons.mp hp).2 b hb
      · rw [List.dropWhile_cons_of_neg (by simpa using hf)] at hb
        rcases List.mem_cons.mp hb with rfl | hb'
        · exact lt_of_not_le hf
        · exact lt_of_lt_of_le (lt_of_not_le hf)
            ((List.pairwise_cons.mp hp).1 b hb')

/-- C5 (amended): replacing an entry by a same-keyed entry `x` sharing its
effective commit time does *not* keep the replaced entry's original position
among equal-time entries: in a chronologically sorted, uniformly parseable
log, the incoming entry always lands at the *end* of the block of retained
entries whose effective commit time is ≤ its own (so its position is
preserved exactly when the replaced entry was already the last of its
equal-time block).  The merged log is precisely: the retained entries with
effective time ≤ that of `x`, then `x`, then the strictly later entries. -/
theorem merge_singleton_position (existing : List BenchmarkEntry)
    (x : BenchmarkEntry)
    (hall : ∀ e ∈ x :: existing, (parseRFC3339 e.commit.date).isSome = true)
    (hsorted : effMono existing = true) :
    mergeEntriesPure existing [x] 0 =
      (filterNotInBatch existing [x]).takeWhile
        (fun y => effectiveTimeNanos y ≤ effectiveTimeNanos x) ++
      x :: (filterNotInBatch existing [x]).dropWhile
        (fun y => effectiveTimeNanos y ≤ effectiveTimeNanos x) := by
  have hagree : ∀ a ∈ x :: existing, ∀ b ∈ x :: existing,
      commitDateLess a b =
        decide (effectiveTimeNanos a < effectiveTimeNanos b) :=
    fun a ha b hb => commitDateLess_of_isSome (hall a ha) (hall b hb)
  haveI : IsTrans BenchmarkEntry
      (fun a b => effectiveTimeNanos a ≤ effectiveTimeNanos b) :=
    ⟨fun _ _ _ => le_trans⟩
  have hpwF : List.Pairwise
      (fun a b => effectiveTimeNanos a ≤ effectiveTimeNanos b)
      (filterNotInBatch existing [x]) :=
    (List.chain'_iff_pairwise.mp ((effMono_iff_chain existing).mp
      hsorted)).filter _
  have hFsub : ∀ y ∈ filterNotInBatch existing [x], y ∈ x :: existing :=
    fun y hy =>
      List.mem_cons_of_mem x (mem_filterNotInBatch.mp hy).1
  have h0 : mergeEntriesPure existing [x] 0 = mergedSorted existing [x] := by
    rw [mergeEntriesPure_eq_drop, if_neg]
    intro h
    exact absurd h.1 (by norm_num)
  rw [h0]
  unfold mergedSorted sortByCommitDate sortSliceStable
  rw [List.foldl_append]
  rw [foldl_insRev_sorted commitDateLess effectiveTimeNanos (x :: existing)
    hagree (filterNotInBatch existing [x]) [] hFsub (by simp)
    (by simp) hpwF]
  rw [List.append_nil]
  simp only [List.foldl_cons, List.foldl_nil]
  rw [← List.takeWhile_append_dropWhile
    (fun y => decide (effectiveTimeNanos y ≤ effectiveTimeNanos x))
    (filterNotInBatch existing [x]), List.reverse_append]
  rw [insRev_pass commitDateLess x _ _ ?passP ?passQ]
  · simp
  case passP =>
    intro b hb
    have hbB := List.mem_reverse.mp hb
    have hlt := sorted_dropWhile_lt effectiveTimeNanos x _ hpwF b hbB
    rw [hagree x (List.mem_cons_self x existing) b
      (hFsub b (List.Sublist.mem hbB (List.dropWhile_sublist _)))]
    exact decide_eq_true hlt
  case passQ =>
    cases hA : ((filterNotInBatch existing [x]).takeWhile
        (fun y => decide (effectiveTimeNanos y ≤ effectiveTimeNanos x))).reverse with
    | nil => exact Or.inl rfl
    | cons h t =>
        refine Or.inr ⟨h, t, rfl, ?_⟩
        have hhA : h ∈ (filterNotInBatch existing [x]).takeWhile
            (fun y => decide (effectiveTimeNanos y ≤ effectiveTimeNanos x)) := by
          rw [← List.mem_reverse, hA]
          exact List.mem_cons_self h t
        have hle : effectiveTimeNanos h ≤ effectiveTimeNanos x := by
          simpa using List.mem_takeWhile_imp hhA
        rw [hagree x (List.mem_cons_self x existing) h
          (hFsub h (List.Sublist.mem hhA (List.takeWhile_sublist _)))]
        exact decide_eq_false (not_lt.mpr hle)

/-- Witness for C5 at a concrete replacement with an equal-time neighbour. -/
theorem merge_singleton_position_witness :
    mergeEntriesPure [entA, entB, entY] [entB2] 0 =
      (filterNotInBatch [entA, entB, entY] [entB2]).takeWhile
        (fun y => effectiveTimeNanos y ≤ effectiveTimeNanos entB2) ++
      entB2 :: (filterNotInBatch [entA, entB, entY] [entB2]).dropWhile
        (fun y => effectiveTimeNanos y ≤ effectiveTimeNanos entB2) :=
  merge_singleton_position [entA, entB, entY] entB2 (by decide) (by decide)

/-- Counterexample for C5 as stated: `entB` sits *before* the equal-time
`entY`; replacing it by the same-keyed, same-dated `entB2` produces
`[entY, entB2]` — the replacement moved past its equal-time neighbour even
though its date did not change. -/
theorem merge_singleton_position_moves :
    mergeEntriesPure [entB, entY] [entB2] 0 = [entY, entB2] ∧
    effectiveTimeNanos entB2 = effectiveTimeNanos entY ∧
    entB2.EntryKey = entB.EntryKey ∧ entB.EntryKey ≠ entY.EntryKey := by
  decide

/-! ## Claim C7: the release-tag pattern -/

theorem consumeDot_some {l l' : List Char} (h : consumeDot l = some l') :
    l = '.' :: l' := by
  unfold consumeDot at h
  split at h
  · injection h with h2
    rw [h2]
  · cases h

theorem consumeNum_some_decomp {l l' : List Char}
    (h : consumeNum l = some l') :
    ∃ d, d ≠ [] ∧ (∀ c ∈ d, c.isDigit = true) ∧ l = d ++ l' := by
  cases l with
  | nil => cases h
  | cons c cs =>
      have h2 : (if c.isDigit = true then some (cs.dropWhile Char.isDigit)
          else none) = some l' := h
      by_cases hc : c.isDigit = true
      · rw [if_pos hc] at h2
        injection h2 with h3
        refine ⟨c :: cs.takeWhile Char.isDigit, by simp, ?_, ?_⟩
        · intro a ha
          rcases List.mem_cons.mp ha with rfl | ha'
          · exact hc
          · exact List.mem_takeWhile_imp ha'
        · rw [← h3, List.cons_append, List.takeWhile_append_dropWhile]
      · rw [if_neg hc] at h2
        cases h2

theorem dropWhile_all_append {p : α → Bool} :
    ∀ ds : List α, (∀ c ∈ ds, p c = true) → ∀ (x : α) (r : List α),
      p x = false → (ds ++ x :: r).dropWhile p = x :: r := by
  intro ds
  induction ds with
  | nil =>
      intro _ x r hx
      simp [List.dropWhile_cons, hx]
  | cons c cs ih =>
      intro hall x r hx
      rw [List.cons_append, List.dropWhile_cons_of_pos
        (hall c (List.mem_cons_self c cs))]
      exact ih (fun a ha => hall a (List.mem_cons_of_mem c ha)) x r hx

theorem consumeNum_digits_append {d : List Char} (hne : d ≠ [])
    (hd : ∀ c ∈ d, c.isDigit = true) (x : Char) (hx : x.isDigit = false)
    (r : List Char) : consumeNum (d ++ x :: r) = some (x :: r) := by
  cases d with
  | nil => cases hne rfl
  | cons c cs =>
      show (if c.isDigit = true
          then some ((cs ++ x :: r).dropWhile Char.isDigit) else none) =
        some (x :: r)
      rw [if_pos (hd c (List.mem_cons_self c cs))]
      rw [dropWhile_all_append cs
        (fun a ha => hd a (List.mem_cons_of_mem c ha)) x r hx]

theorem consumeNum_isSome {d : List Char} (hne : d ≠ [])
    (hd : ∀ c ∈ d, c.isDigit = true) (r : List Char) :
    (consumeNum (d ++ r)).isSome = true := by
  cases d with
  | nil => cases hne rfl
  | cons c cs =>
      show (if c.isDigit = true
          then some ((cs ++ r).dropWhile Char.isDigit) else none).isSome = true
      rw [if_pos (hd c (List.mem_cons_self c cs))]
      rfl

theorem semverTriple_decomp {d1 d2 d3 : List Char} (rest : List Char)
    (hne1 : d1 ≠ []) (hne2 : d2 ≠ [])
    (hd1 : ∀ c ∈ d1, c.isDigit = true) (hd2 : ∀ c ∈ d2, c.isDigit = true) :
    semverTriple (d1 ++ '.' :: (d2 ++ '.' :: (d3 ++ rest))) =
      consumeNum (d3 ++ rest) := by
  unfold semverTriple
  rw [consumeNum_digits_append hne1 hd1 '.' (by decide) _, Option.some_bind,
    show consumeDot ('.' :: (d2 ++ '.' :: (d3 ++ rest))) =
      some (d2 ++ '.' :: (d3 ++ rest)) from rfl, Option.some_bind,
    consumeNum_digits_append hne2 hd2 '.' (by decide) _, Option.some_bind,
    show consumeDot ('.' :: (d3 ++ rest)) = some (d3 ++ rest) from rfl,
    Option.some_bind]

theorem matchSemverCore_iff (l : List Char) :
    matchSemverCore l = true ↔
      ∃ d1 d2 d3 rest : List Char,
        d1 ≠ [] ∧ d2 ≠ [] ∧ d3 ≠ [] ∧
        (∀ c ∈ d1, c.isDigit = true) ∧ (∀ c ∈ d2, c.isDigit = true) ∧
        (∀ c ∈ d3, c.isDigit = true) ∧
        l = d1 ++ '.' :: (d2 ++ '.' :: (d3 ++ rest)) := by
  constructor
  · intro h
    unfold matchSemverCore semverTriple at h
    cases h1 : consumeNum l with
    | none => rw [h1, Option.none_bind] at h; cases h
    | some l1 =>
        rw [h1, Option.some_bind] at h
        cases h2 : consumeDot l1 with
        | none => rw [h2, Option.none_bind] at h; cases h
        | some l2 =>
            rw [h2, Option.some_bind] at h
            cases h3 : consumeNum l2 with
            | none => rw [h3, Option.none_bind] at h; cases h
            | some l3 =>
                rw [h3, Option.some_bind] at h
                cases h4 : consumeDot l3 with
                | none => rw [h4, Option.none_bind] at h; cases h
                | some l4 =>
                    rw [h4, Option.some_bind] at h
                    obtain ⟨d1, hne1, hd1, hl⟩ := consumeNum_some_decomp h1
                    obtain ⟨d2, hne2, hd2, hl2⟩ := consumeNum_some_decomp h3
                    obtain ⟨l5, h5⟩ := Option.isSome_iff_exists.mp h
                    obtain ⟨d3, hne3, hd3, hl4⟩ := consumeNum_some_decomp h5
                    refine ⟨d1, d2, d3, l5, hne1, hne2, hne3, hd1, hd2, hd3, ?_⟩
                    rw [hl, consumeDot_some h2, hl2, consumeDot_some h4, hl4]
  · rintro ⟨d1, d2, d3, rest, hne1, hne2, hne3, hd1, hd2, hd3, rfl⟩
    unfold matchSemverCore
    rw [semverTriple_decomp rest hne1 hne2 hd1 hd2]
    exact consumeNum_isSome hne3 hd3 rest

/-- C7 (amended): `IsSemanticVersionTag` returns true for *exactly* the
names that begin with an optional `v` followed by MAJOR.MINOR.PATCH — with
an *arbitrary* (possibly empty) remainder after the three numeric
components, not only a pre-release/build suffix.  (As stated the claim is
false: the anchored regex `^v?\d+\.\d+\.\d+` never inspects what follows
the patch number, so e.g. `1.2.3x` also qualifies; see the counterexample.
Names like `v1`, `v1.0` or non-numeric names still do not qualify, since
they contain no three dot-separated digit runs at the start.) -/
theorem isSemanticVersionTag_iff (name : String) :
    IsSemanticVersionTag name = true ↔ SemverPrefixForm name := by
  unfold IsSemanticVersionTag SemverPrefixForm
  rw [Bool.or_eq_true]
  constructor
  · rintro (h | h)
    · obtain ⟨d1, d2, d3, rest, hne1, hne2, hne3, hd1, hd2, hd3, heq⟩ :=
        (matchSemverCore_iff _).mp h
      exact ⟨d1, d2, d3, rest, hne1, hne2, hne3, hd1, hd2, hd3, Or.inl heq⟩
    · cases hd : name.data with
      | nil => rw [hd] at h; cases h
      | cons c cs =>
          rw [hd] at h
          split at h
          · rename_i heq2
            obtain ⟨d1, d2, d3, rest, hne1, hne2, hne3, hd1, hd2, hd3, hcs⟩ :=
              (matchSemverCore_iff _).mp h
            refine ⟨d1, d2, d3, rest, hne1, hne2, hne3, hd1, hd2, hd3,
              Or.inr ?_⟩
            rw [← hcs]
            exact heq2
          · cases h
  · rintro ⟨d1, d2, d3, rest, hne1, hne2, hne3, hd1, hd2, hd3, heq | heq⟩
    · exact Or.inl ((matchSemverCore_iff _).mpr
        ⟨d1, d2, d3, rest, hne1, hne2, hne3, hd1, hd2, hd3, heq⟩)
    · refine Or.inr ?_
      rw [heq]
      exact (matchSemverCore_iff _).mpr
        ⟨d1, d2, d3, rest, hne1, hne2, hne3, hd1, hd2, hd3, rfl⟩

/-- Counterexample for C7 as stated: `1.2.3x` is accepted by the code's
predicate although `x` is not a pre-release/build suffix (the spec-worded
pattern rejects it); the spec's own positive and negative examples behave
as described. -/
theorem isSemanticVersionTag_accepts_junk_suffix :
    IsSemanticVersionTag "1.2.3x" = true ∧
    specIsReleaseTag "1.2.3x" = false ∧
    specIsReleaseTag "v1.2.3" = true ∧
    specIsReleaseTag "1.2.3-beta.1" = true ∧
    IsSemanticVersionTag "v1" = false ∧
    IsSemanticVersionTag "v1.0" = false ∧
    IsSemanticVersionTag "main" = false := by
  decide

/-! ## Claim C8: the fallback comparison -/

/-- C8 (amended): whenever RFC-3339 parsing fails for *either* of the two
compared entries — in particular when it fails for exactly one — the merge
comparator compares the two entries' numeric timestamp fields, i.e. it
forces *both* entries to the numeric-timestamp fallback.  (The claim as
stated — that the comparator uses each entry's own best-available value,
parsed date for the one that parsed and numeric timestamp for the other —
is false on the code: `sortByCommitDate` tests `erri != nil || errj != nil`
and then compares `entries[i].Date < entries[j].Date`; see the
counterexample.) -/
theorem comparator_forces_numeric_fallback (a b : BenchmarkEntry)
    (h : parseRFC3339 a.commit.date = none ∨
      parseRFC3339 b.commit.date = none) :
    commitDateLess a b = decide (a.date < b.date) :=
  commitDateLess_of_none h

/-- Witness for C8: a parseable entry compared against an unparseable one. -/
theorem comparator_forces_numeric_fallback_witness :
    commitDateLess entQ entU = decide (entQ.date < entU.date) :=
  comparator_forces_numeric_fallback entQ entU (Or.inr (by decide))

/-- Counterexample for C8 as stated: `entQ` parses (best-available value is
its 2024 parsed instant) while `entU` does not (best-available value is its
numeric timestamp 100); the spec-worded asymmetric comparator would order
`entQ` *after* `entU`, but the code's comparator uses both numeric
timestamps (5 < 100) and orders `entQ` first. -/
theorem comparator_not_best_available :
    commitDateLess entQ entU = true ∧
    specAsymLess entQ entU = false ∧
    (parseRFC3339 entQ.commit.date).isSome = true ∧
    parseRFC3339 entU.commit.date = none := by
  decide

/-! ## Claim C9: absence is empty, corruption is an error -/

/-- C9: reading a branch log, the catalog, or the metadata when the backing
file does not exist yields the empty/zero result and no error; a file that
exists but does not decode yields a decode error. -/
theorem read_absent_empty_corrupt_error (d : Disk) (branch : String) :
    (d.dataFiles (sanitizeBranchName branch) = .absent →
      readBranchData d branch = .ok []) ∧
    (d.dataFiles (sanitizeBranchName branch) = .corrupt →
      readBranchData d branch = .error .decodeError) ∧
    (d.branchesFile = .absent → readBranches d = .ok []) ∧
    (d.branchesFile = .corrupt → readBranches d = .error .decodeError) ∧
    (d.metadataFile = .absent → readMetadata d = .ok ⟨"", 0, ""⟩) ∧
    (d.metadataFile = .corrupt → readMetadata d = .error .decodeError) := by
  refine ⟨?_, ?_, ?_, ?_, ?_, ?_⟩ <;> intro h <;>
    simp [readBranchData, readBranches, readMetadata, h]

/-- Witness for C9 on concrete disks. -/
theorem read_absent_empty_corrupt_error_witness :
    readBranchData disk0 "main" = .ok [] ∧
    readBranches diskCorrupt = .error .decodeError ∧
    readMetadata disk0 = .ok ⟨"", 0, ""⟩ ∧
    readBranchData diskBadData "main" = .error .decodeError :=
  ⟨(read_absent_empty_corrupt_error disk0 "main").1 rfl,
   (read_absent_empty_corrupt_error diskCorrupt "x").2.2.2.1 rfl,
   (read_absent_empty_corrupt_error disk0 "x").2.2.2.2.1 rfl,
   (read_absent_empty_corrupt_error diskBadData "main").2.1 (by decide)⟩

/-! ## Claim C10: sanitization is not injective -/

/-- C10: all nine special characters map to `_`, so sanitization collides —
`a/b` and `a:b` share the data file `a_b.json`, and after writing one
branch's entries, reading the *other* branch returns them. -/
theorem sanitize_collision :
    sanitizeBranchName "a/b" = "a_b" ∧
    sanitizeBranchName "a:b" = "a_b" ∧
    ("a/b" : String) ≠ "a:b" ∧
    sanitizeBranchName "/\\:*?\"<>|" = "_________" ∧
    ∀ (d : Disk) (entries : List BenchmarkEntry),
      readBranchData (writeBranchData d "a/b" entries) "a:b" = .ok entries := by
  refine ⟨by decide, by decide, by decide, by decide, ?_⟩
  intro d entries
  have h : sanitizeBranchName "a:b" = sanitizeBranchName "a/b" := by decide
  unfold readBranchData writeBranchData
  rw [h]
  simp

/-! ## Claim C6: tag routing -/

theorem tag_ne_releases {branch : String}
    (h : IsSemanticVersionTag branch = true) :
    branch ≠ ReleasesVirtualBranch := by
  intro heq
  rw [heq] at h
  exact absurd h (by decide)

theorem map_sanitizeChar_eq {l t : List Char}
    (h : l.map sanitizeChar = t) (ht : ∀ c ∈ t, c ≠ '_') : l = t := by
  induction l generalizing t with
  | nil =>
      rw [List.map_nil] at h
      exact h
  | cons a l ih =>
      cases t with
      | nil => cases h
      | cons b t2 =>
          rw [List.map_cons] at h
          injection h with h1 h2
          have hb : b ≠ '_' := ht b (List.mem_cons_self b t2)
          have ha : a = b := by
            unfold sanitizeChar at h1
            split at h1
            · exact absurd h1.symm hb
            · exact h1
          rw [ha, ih h2 (fun c hc => ht c (List.mem_cons_of_mem b hc))]

theorem sanitizeBranchName_eq_releases {branch : String}
    (h : sanitizeBranchName branch = ReleasesVirtualBranch) :
    branch = ReleasesVirtualBranch := by
  have hdata : branch.data.map sanitizeChar = ReleasesVirtualBranch.data :=
    congrArg String.data h
  exact String.ext (map_sanitizeChar_eq hdata (by decide))

theorem tag_sanitize_ne_releases {branch : String}
    (h : IsSemanticVersionTag branch = true) :
    sanitizeBranchName branch ≠ ReleasesVirtualBranch := by
  intro heq
  exact absurd h (by rw [sanitizeBranchName_eq_releases heq]; decide)

theorem readBranches_congr {d1 d2 : Disk}
    (h : d1.branchesFile = d2.branchesFile) :
    readBranches d1 = readBranches d2 := by
  unfold readBranches
  rw [h]

theorem readBranchData_congr {d1 d2 : Disk} (h : d1.dataFiles = d2.dataFiles)
    (branch : String) : readBranchData d1 branch = readBranchData d2 branch := by
  unfold readBranchData
  rw [h]

theorem readBranchData_write_self (d : Disk) (branch : String)
    (l : List BenchmarkEntry) :
    readBranchData (writeBranchData d branch l) branch = .ok l := by
  unfold readBranchData writeBranchData
  simp

theorem readBranchData_write_other {branch branch2 : String}
    (hne : sanitizeBranchName branch2 ≠ sanitizeBranchName branch)
    (d : Disk) (l : List BenchmarkEntry) :
    readBranchData (writeBranchData d branch l) branch2 =
      readBranchData d branch2 := by
  unfold readBranchData writeBranchData
  dsimp only
  rw [if_neg hne]

theorem mem_sortBranches {x : String} {l : List String} :
    x ∈ sortBranches l ↔ x ∈ l := by
  unfold sortBranches
  exact (sortSliceStable_perm branchNameLess l).mem_iff

theorem tag_head {branch : String} (h : IsSemanticVersionTag branch = true) :
    ∃ c cs, branch.data = c :: cs ∧ (c.isDigit = true ∨ c = 'v') := by
  unfold IsSemanticVersionTag at h
  rw [Bool.or_eq_true] at h
  rcases h with h | h
  · unfold matchSemverCore semverTriple at h
    cases hd : branch.data with
    | nil =>
        rw [hd, show consumeNum ([] : List Char) = none from rfl,
          Option.none_bind] at h
        cases h
    | cons c cs =>
        by_cases hc : c.isDigit = true
        · exact ⟨c, cs, rfl, Or.inl hc⟩
        · rw [hd, show consumeNum (c :: cs) = none from by
              show (if c.isDigit = true
                then some (cs.dropWhile Char.isDigit) else none) = none
              rw [if_neg hc], Option.none_bind] at h
          cases h
  · cases hd : branch.data with
    | nil => rw [hd] at h; cases h
    | cons c cs =>
        rw [hd] at h
        split at h
        · rename_i rest heq
          injection heq with h1 h2
          exact ⟨c, cs, rfl, Or.inr h1⟩
        · cases h

theorem tag_sanitize_head {branch : String}
    (h : IsSemanticVersionTag branch = true) :
    ∃ c cs, (sanitizeBranchName branch).data = c :: cs ∧ c ≠ 'r' := by
  obtain ⟨c, cs, hd, hc⟩ := tag_head h
  have hself : sanitizeChar c = c := by
    unfold sanitizeChar
    rw [if_neg]
    intro hor
    rcases hor with rfl | rfl | rfl | rfl | rfl | rfl | rfl | rfl | rfl <;>
      rcases hc with h2 | h2 <;> exact absurd h2 (by decide)
  refine ⟨c, cs.map sanitizeChar, ?_, ?_⟩
  · show branch.data.map sanitizeChar = c :: cs.map sanitizeChar
    rw [hd, List.map_cons, hself]
  · intro hr
    subst hr
    rcases hc with h2 | h2 <;> exact absurd h2 (by decide)

theorem tag_sanitize_ne {branch : String}
    (h : IsSemanticVersionTag branch = true) (t : String)
    (ht : t.data.head? = some 'r') : sanitizeBranchName branch ≠ t := by
  intro heq
  obtain ⟨c, cs, hdata, hcr⟩ := tag_sanitize_head h
  have h2 := ht
  rw [← heq, hdata] at h2
  simp only [List.head?_cons, Option.some.injEq] at h2
  exact hcr h2

theorem tag_sanitize_ne_releaseTagsKey {branch : String}
    (h : IsSemanticVersionTag branch = true) :
    sanitizeBranchName branch ≠ releaseTagsKey :=
  tag_sanitize_ne h releaseTagsKey (by decide)

theorem readBranchData_congr_at {d1 d2 : Disk} {branch : String}
    (h : d1.dataFiles (sanitizeBranchName branch) =
      d2.dataFiles (sanitizeBranchName branch)) :
    readBranchData d1 branch = readBranchData d2 branch := by
  unfold readBranchData
  rw [h]

theorem ensureBranch_spec {d : Disk} {branch : String} {b : Bool} {d1 : Disk}
    (hE : ensureBranch d branch = .ok (b, d1)) :
    ∃ bs bs1, readBranches d = .ok bs ∧ readBranches d1 = .ok bs1 ∧
      registeredName branch ∈ bs1 ∧
      (∀ x ∈ bs1, x = registeredName branch ∨ x ∈ bs) ∧
      d1.dataFiles = d.dataFiles := by
  unfold ensureBranch at hE
  split at hE
  · cases hE
  · rename_i bs hR
    by_cases hc : bs.contains (registeredName branch) = true
    · rw [if_pos hc] at hE
      cases hE
      obtain ⟨y, hy, hbeq⟩ := List.contains_iff_exists_mem_beq.mp hc
      rw [beq_iff_eq] at hbeq
      exact ⟨bs, bs, hR, hR, hbeq ▸ hy, fun x hx => Or.inr hx, rfl⟩
    · rw [if_neg hc] at hE
      cases hE
      refine ⟨bs, sortBranches (bs ++ [registeredName branch]), hR, rfl,
        ?_, ?_, rfl⟩
      · rw [mem_sortBranches]
        exact List.mem_append.mpr (Or.inr (List.mem_singleton.mpr rfl))
      · intro x hx
        rcases List.mem_append.mp (mem_sortBranches.mp hx) with h | h
        · exact Or.inr h
        · exact Or.inl (List.mem_singleton.mp h)

theorem mergeEntries_spec {d : Disk} {branch : String}
    {newEntries : List BenchmarkEntry} {maxItems : Int} {d2 : Disk}
    (hM : mergeEntries d branch newEntries maxItems = .ok d2) :
    ∃ old, readBranchData d branch = .ok old ∧
      d2 = writeBranchData d branch
        (mergeEntriesPure old newEntries maxItems) := by
  unfold mergeEntries at hM
  split at hM
  · cases hM
  · rename_i old hR
    cases hM
    exact ⟨old, hR, rfl⟩

theorem recordReleaseTags_spec {d : Disk} {tag : String}
    {entries : List BenchmarkEntry} {d4 : Disk}
    (hR : recordReleaseTags d tag entries = .ok d4) :
    d4.branchesFile = d.branchesFile ∧
    ∀ p, p ≠ releaseTagsKey → d4.dataFiles p = d.dataFiles p := by
  unfold recordReleaseTags at hR
  split at hR
  · cases hR
  · cases hR
    refine ⟨rfl, fun p hp => ?_⟩
    show (if p = releaseTagsKey then _ else d.dataFiles p) = d.dataFiles p
    rw [if_neg hp]

/-- C6 (amended): appending under a release-tag name registers only the
aggregate `releases` name in the catalog (never the literal tag name), and
merges the batch both into the tag's own log and into the aggregate log;
appending under a non-tag name performs only the registration of the
literal name and the per-branch merge (no other data file changes), so the
aggregate log is untouched provided the branch name is not `releases`
itself, and the tag map — which shares the `data/` directory as
`release_tags.json` — is untouched provided the branch name does not
sanitize to `release_tags`.  (As stated — for *every* non-tag branch name —
the claim is false: appending under the literal name `releases` merges into
the aggregate log, which *is* that branch's log, and appending under a name
sanitizing to `release_tags`, such as `release/tags`, overwrites the tag
map; see the counterexample.) -/
theorem appendEntries_tag_routing (d : Disk) (branch : String)
    (newEntries : List BenchmarkEntry) (maxItems : Int) (d' : Disk)
    (happ : appendEntries d branch newEntries maxItems = .ok d')
    (hne : newEntries ≠ []) :
    (IsSemanticVersionTag branch = true →
      ∃ bs bs' old oldRel,
        readBranches d = .ok bs ∧ readBranches d' = .ok bs' ∧
        ReleasesVirtualBranch ∈ bs' ∧
        (∀ x ∈ bs', x = ReleasesVirtualBranch ∨ x ∈ bs) ∧
        (branch ∉ bs → branch ∉ bs') ∧
        readBranchData d branch = .ok old ∧
        readBranchData d ReleasesVirtualBranch = .ok oldRel ∧
        readBranchData d' branch =
          .ok (mergeEntriesPure old newEntries maxItems) ∧
        readBranchData d' ReleasesVirtualBranch =
          .ok (mergeEntriesPure oldRel newEntries maxItems)) ∧
    (IsSemanticVersionTag branch = false → branch ≠ ReleasesVirtualBranch →
      ∃ bs bs' old,
        readBranches d = .ok bs ∧ readBranches d' = .ok bs' ∧
        branch ∈ bs' ∧ (∀ x ∈ bs', x = branch ∨ x ∈ bs) ∧
        readBranchData d branch = .ok old ∧
        readBranchData d' branch =
          .ok (mergeEntriesPure old newEntries maxItems) ∧
        (∀ p, p ≠ sanitizeBranchName branch →
          d'.dataFiles p = d.dataFiles p) ∧
        d'.dataFiles ReleasesVirtualBranch =
          d.dataFiles ReleasesVirtualBranch ∧
        (sanitizeBranchName branch ≠ releaseTagsKey →
          d'.dataFiles releaseTagsKey = d.dataFiles releaseTagsKey)) := by
  have hni : newEntries.isEmpty = false := List.isEmpty_eq_false.mpr hne
  unfold appendEntries at happ
  rw [hni] at happ
  simp only [Bool.false_eq_true, if_false] at happ
  split at happ
  · cases happ
  · rename_i b d1 hE
    split at happ
    · cases happ
    · rename_i d2 hM1
      obtain ⟨bs, bs1, hRd, hRd1, hnmem, hsub, hdf1⟩ := ensureBranch_spec hE
      obtain ⟨old, hold1, hd2⟩ := mergeEntries_spec hM1
      have holdd : readBranchData d branch = .ok old := by
        rw [← readBranchData_congr hdf1 branch]
        exact hold1
      split at happ
      · rename_i htag
        split at happ
        · cases happ
        · rename_i d3 hM2
          obtain ⟨oldRel, holdRel2, hd3⟩ := mergeEntries_spec hM2
          obtain ⟨hbf4, hdf4⟩ := recordReleaseTags_spec happ
          have hreg : registeredName branch = ReleasesVirtualBranch := by
            unfold registeredName
            rw [htag]
            simp
          have hsanR : sanitizeBranchName ReleasesVirtualBranch =
              ReleasesVirtualBranch := by decide
          have hsan : sanitizeBranchName ReleasesVirtualBranch ≠
              sanitizeBranchName branch := by
            rw [hsanR]
            exact fun hx => tag_sanitize_ne_releases htag hx.symm
          have hsan2 : sanitizeBranchName branch ≠
              sanitizeBranchName ReleasesVirtualBranch := fun hx => hsan hx.symm
          have holdReld : readBranchData d ReleasesVirtualBranch =
              .ok oldRel := by
            rw [← readBranchData_congr hdf1 ReleasesVirtualBranch,
              ← readBranchData_write_other hsan d1
                (mergeEntriesPure old newEntries maxItems), ← hd2]
            exact holdRel2
          constructor
          · intro _
            refine ⟨bs, bs1, old, oldRel, hRd, ?_, hreg ▸ hnmem, ?_, ?_,
              holdd, holdReld, ?_, ?_⟩
            · have hb' : readBranches d' = readBranches d1 :=
                readBranches_congr (by rw [hbf4, hd3, hd2]; rfl)
              rw [hb']
              exact hRd1
            · intro x hx
              rcases hsub x hx with h | h
              · exact Or.inl (hreg ▸ h)
              · exact Or.inr h
            · intro hnb hmem
              rcases hsub branch hmem with h | h
              · exact tag_ne_releases htag (hreg ▸ h)
              · exact hnb h
            · have hx1 : readBranchData d' branch = readBranchData d3 branch :=
                readBranchData_congr_at
                  (hdf4 _ (tag_sanitize_ne_releaseTagsKey htag))
              rw [hx1, hd3, readBranchData_write_other hsan2, hd2,
                readBranchData_write_self]
            · have hx2 : readBranchData d' ReleasesVirtualBranch =
                  readBranchData d3 ReleasesVirtualBranch :=
                readBranchData_congr_at (hdf4 _ (by decide))
              rw [hx2, hd3, readBranchData_write_self]
          · intro hfalse _
            rw [htag] at hfalse
            cases hfalse
      · rename_i htag
        have hdd : d2 = d' := by injection happ
        subst hdd
        constructor
        · intro htrue
          exact absurd htrue htag
        · intro _ hbrne
          have hreg : registeredName branch = branch := by
            unfold registeredName
            rw [if_neg htag]
          have hsanb : sanitizeBranchName branch ≠ ReleasesVirtualBranch :=
            fun hx => hbrne (sanitizeBranchName_eq_releases hx)
          refine ⟨bs, bs1, old, hRd, ?_, hreg ▸ hnmem, ?_, holdd, ?_, ?_,
            ?_, ?_⟩
          · have hb' : readBranches d2 = readBranches d1 :=
              readBranches_congr (by rw [hd2]; rfl)
            rw [hb']
            exact hRd1
          · intro x hx
            rcases hsub x hx with h | h
            · exact Or.inl (hreg ▸ h)
            · exact Or.inr h
          · rw [hd2, readBranchData_write_self]
          · intro p hp
            rw [hd2]
            show (if p = sanitizeBranchName branch then _ else d1.dataFiles p) =
              d.dataFiles p
            rw [if_neg hp]
            exact congrFun hdf1 p
          · rw [hd2]
            show (if ReleasesVirtualBranch = sanitizeBranchName branch
              then _ else d1.dataFiles ReleasesVirtualBranch) =
              d.dataFiles ReleasesVirtualBranch
            rw [if_neg (fun hx => hsanb hx.symm)]
            exact congrFun hdf1 ReleasesVirtualBranch
          · intro hst
            rw [hd2]
            show (if releaseTagsKey = sanitizeBranchName branch
              then _ else d1.dataFiles releaseTagsKey) =
              d.dataFiles releaseTagsKey
            rw [if_neg (fun hx => hst hx.symm)]
            exact congrFun hdf1 releaseTagsKey

/-- Witness for C6 at a concrete tag append (`v1.0.0` into the empty
disk). -/
theorem appendEntries_tag_routing_witness :
    ∃ bs bs' old oldRel,
      readBranches disk0 = .ok bs ∧ readBranches diskTag = .ok bs' ∧
      ReleasesVirtualBranch ∈ bs' ∧
      (∀ x ∈ bs', x = ReleasesVirtualBranch ∨ x ∈ bs) ∧
      ("v1.0.0" ∉ bs → "v1.0.0" ∉ bs') ∧
      readBranchData disk0 "v1.0.0" = .ok old ∧
      readBranchData disk0 ReleasesVirtualBranch = .ok oldRel ∧
      readBranchData diskTag "v1.0.0" = .ok (mergeEntriesPure old [entA] 0) ∧
      readBranchData diskTag ReleasesVirtualBranch =
        .ok (mergeEntriesPure oldRel [entA] 0) :=
  (appendEntries_tag_routing disk0 "v1.0.0" [entA] 0 diskTag rfl
    (by decide)).1 (by decide)

/-- Counterexample for C6 as stated: appending under the non-tag name
`releases` changes the aggregate log (it *is* that branch's log), and
appending under the non-tag name `release/tags` — which sanitizes to
`release_tags` — overwrites the tag-map file `data/release_tags.json` with
a branch log, so neither "the aggregate log is untouched" nor "only the
per-branch merge occurs" holds for every non-tag branch name. -/
theorem append_releases_touches_aggregate :
    (appendEntries disk0 ReleasesVirtualBranch [entA] 0).map
        (fun dd => dd.dataFiles ReleasesVirtualBranch) =
      .ok (.good (.entries [entA])) ∧
    disk0.dataFiles ReleasesVirtualBranch = .absent ∧
    IsSemanticVersionTag ReleasesVirtualBranch = false ∧
    (appendEntries disk0 "release/tags" [entA] 0).map
        (fun dd => dd.dataFiles releaseTagsKey) =
      .ok (.good (.entries [entA])) ∧
    sanitizeBranchName "release/tags" = releaseTagsKey ∧
    IsSemanticVersionTag "release/tags" = false := by
  refine ⟨rfl, rfl, by decide, rfl, by decide, by decide⟩

end GoBench
